import Mathlib

/-!
Shallow embedding of the `tiles` package quadkey index (`src/index.go`) and
proofs of the specified properties.  Go strings are modelled as lists of
naturals (one per byte), Go slices as lists, Go panics as `none`.
-/

namespace Tiles

/-- Quadkeys are byte strings; we model them as lists of naturals (one per byte). -/
abbrev QK := List Nat

/-- Modelled from the spec: the Tile/QuadKey codec is an external collaborator
(outside `src/index.go`).  The spec requires only that `QuadKey` is injective
and that tile containment corresponds to the quadkey of the ancestor standing
at the front of the quadkey of the descendant, so a tile is represented
directly by its quadkey string and `QuadKey` / `TileFromQuadKey` are the
identity. -/
abbrev Tile := QK

/-- Embedding of Go `strings.HasPrefix(s, p)` as `isPreB p s`: the byte
string `s` starts with `p`. -/
def isPreB : QK → QK → Bool
  | [], _ => true
  | _ :: _, [] => false
  | a :: as, b :: bs => if a = b then isPreB as bs else false

/-- Lexicographic byte-order comparison `p <= q` of Go strings. -/
def leB : QK → QK → Bool
  | [], _ => true
  | _ :: _, [] => false
  | a :: as, b :: bs => if a < b then true else if b < a then false else leB as bs

/-- Embedding of `type qkey struct { qk string; v int }` (src/index.go). -/
structure qkey where
  qk : QK
  v : Nat
deriving DecidableEq

/-- Comparator used by `byQk.Less` (src/index.go line 99), as a relation. -/
abbrev qkeyLe (a b : qkey) : Prop := leB a.qk b.qk = true

/-- Embedding of `type TileIndex struct { sorted bool; keys []qkey; values []interface{} }`. -/
structure TileIndex (α : Type) where
  sorted : Bool
  keys : List qkey
  values : List α

/-- A zero-valued `TileIndex` (Go zero value: `false`, nil, nil). -/
def emptyIndex {α : Type} : TileIndex α := ⟨false, [], []⟩

/-- Embedding of `func (idx *TileIndex) sort()` (src/index.go lines 77-84):
`sort.Sort(byQk(idx.keys))` reorders by `qk`; for the slice sizes arising in
this development the Go standard sort performs a stable insertion sort,
modelled by `List.insertionSort`. -/
def sortIdx {α : Type} (idx : TileIndex α) : TileIndex α :=
  if idx.sorted then idx
  else { idx with keys := List.insertionSort qkeyLe idx.keys, sorted := true }

/-- Loop of the Go stdlib `sort.Search` (binary search), with explicit fuel
bounding the trip count (`j - i` shrinks each round, so `n` rounds always
suffice). -/
def searchLoop (f : Nat → Bool) : Nat → Nat → Nat → Nat
  | 0, i, _ => i
  | fuel + 1, i, j =>
    if i < j then
      let m := (i + j) / 2
      if f m then searchLoop f fuel i m else searchLoop f fuel (m + 1) j
    else i

/-- Go `sort.Search(n, f)`. -/
def goSearch (n : Nat) (f : Nat → Bool) : Nat := searchLoop f n 0 n

/-- Embedding of `func (idx *TileIndex) search(qk string) int` (src/index.go
lines 86-88): index of the first key that is `>= qk`, by binary search. -/
def searchIdx (keys : List qkey) (qk : QK) : Nat :=
  goSearch keys.length (fun i => leB qk ((keys.getD i ⟨[], 0⟩).qk))

/-- Scan loop of `Values` (src/index.go lines 57-62).  The Go loop keeps the
variable `n` one step behind the cursor: the guard tests `n`, the body then
reloads `n` from the cursor and collects the value of that entry.  Here
`rest` is the suffix of `keys` from the cursor on; `values[n.v]` out of
range is a Go panic, modelled as `none`. -/
def valuesLoop {α : Type} (values : List α) (qk : QK) : List qkey → qkey → Option (List α)
  | [], _ => some []
  | k :: rest, n =>
    if isPreB qk n.qk then
      match values[k.v]? with
      | none => none
      | some v => Option.map (fun l => v :: l) (valuesLoop values qk rest k)
    else some []

/-- Embedding of `func (idx *TileIndex) Values(t Tile) []interface{}`
(src/index.go lines 48-64). -/
def Values {α : Type} (idx : TileIndex α) (t : Tile) : Option (List α) :=
  let s := sortIdx idx
  let qk := t
  let i := searchIdx s.keys qk
  if h : i < s.keys.length then
    valuesLoop s.values qk (s.keys.drop i) (s.keys.get ⟨i, h⟩)
  else some []

/-- Embedding of `func (idx *TileIndex) Add(t Tile, val interface{})`
(src/index.go lines 67-74). -/
def Add {α : Type} (idx : TileIndex α) (t : Tile) (val : α) : TileIndex α :=
  let values := idx.values ++ [val]
  { idx with
      values := values
      keys := idx.keys ++ [⟨t, values.length - 1⟩]
      sorted := false }

/-- Inner zoom loop of `TileRange` for one adjacent pair (src/index.go lines
33-37): `for z := zmin; z <= zmax && z <= len(q); z++`, emitting `q[:z]`
whenever it does not stand at the front of the next key `n`.  Fuel bounds
the trip count. -/
def zScan (q n : QK) (zmax : Nat) : Nat → Nat → List QK
  | 0, _ => []
  | fuel + 1, z =>
    if z ≤ zmax ∧ z ≤ q.length then
      (if isPreB (q.take z) n then [] else [q.take z]) ++ zScan q n zmax fuel (z + 1)
    else []

/-- Final zoom loop of `TileRange` for the last key (src/index.go lines
39-42): same bounds, emission unconditional. -/
def zScanLast (q : QK) (zmax : Nat) : Nat → Nat → List QK
  | 0, _ => []
  | fuel + 1, z =>
    if z ≤ zmax ∧ z ≤ q.length then
      q.take z :: zScanLast q zmax fuel (z + 1)
    else []

/-- Adjacent-pair loop of `TileRange` (src/index.go lines 30-38). -/
def pairsLoop (zmin zmax : Nat) : List qkey → List QK
  | a :: b :: rest => zScan a.qk b.qk zmax (zmax + 1 - zmin) zmin ++ pairsLoop zmin zmax (b :: rest)
  | _ => []

/-- Embedding of `func (idx *TileIndex) TileRange(zmin, zmax int) <-chan Tile`
(src/index.go lines 23-45), with the emission sequence of the channel
collected into a list.  After the pair loop the Go code reads
`idx.keys[len(idx.keys)-1]` unconditionally; on an empty index that access
panics, modelled as `none`. -/
def tileRange {α : Type} (idx : TileIndex α) (zmin zmax : Nat) : Option (List QK) :=
  let s := sortIdx idx
  match s.keys.getLast? with
  | none => none
  | some last => some (pairsLoop zmin zmax s.keys ++ zScanLast last.qk zmax (zmax + 1 - zmin) zmin)

/-- Builds an index by a sequence of `Add` calls starting from the zero value. -/
def buildIdx {α : Type} (ps : List (Tile × α)) : TileIndex α :=
  ps.foldl (fun idx p => Add idx p.1 p.2) emptyIndex

/-- Every entry references a value inside the value store. -/
def entriesValid {α : Type} (idx : TileIndex α) : Prop :=
  ∀ k ∈ idx.keys, k.v < idx.values.length

/-- The sorted flag is truthful: when set, the keys are in ascending key order. -/
def flagOK {α : Type} (idx : TileIndex α) : Prop :=
  idx.sorted = true → List.Sorted qkeyLe idx.keys

/-- Keeps, of a list, each element whose successor differs, plus the final
element: the boundary positions that `TileRange` emits at a single zoom. -/
def bnd : List QK → List QK
  | [] => []
  | [x] => [x]
  | x :: y :: rest => (if x = y then [] else [x]) ++ bnd (y :: rest)

theorem leB_cons_iff {x y : Nat} {as bs : QK} :
    leB (x :: as) (y :: bs) = true ↔ x < y ∨ (x = y ∧ leB as bs = true) := by
  simp only [leB]
  by_cases h1 : x < y
  · simp [h1]
  · by_cases h2 : y < x
    · simp only [if_neg h1, if_pos h2]
      constructor
      · intro h
        exact absurd h (by simp)
      · rintro (h | ⟨h, -⟩) <;> omega
    · have hxy : x = y := by omega
      simp [h1, h2, hxy]

theorem leB_refl (a : QK) : leB a a = true := by
  induction a with
  | nil => rfl
  | cons x as ih => simp [leB_cons_iff, ih]

theorem leB_trans {a b c : QK} (hab : leB a b = true) (hbc : leB b c = true) :
    leB a c = true := by
  induction a generalizing b c with
  | nil => rfl
  | cons x as ih =>
    cases b with
    | nil => simp [leB] at hab
    | cons y bs =>
      cases c with
      | nil => simp [leB] at hbc
      | cons z cs =>
        rw [leB_cons_iff] at hab hbc ⊢
        rcases hab with h | ⟨h, hab'⟩ <;> rcases hbc with h' | ⟨h', hbc'⟩
        · exact Or.inl (by omega)
        · exact Or.inl (by omega)
        · exact Or.inl (by omega)
        · exact Or.inr ⟨by omega, ih hab' hbc'⟩

theorem leB_total (a b : QK) : leB a b = true ∨ leB b a = true := by
  induction a generalizing b with
  | nil => exact Or.inl rfl
  | cons x as ih =>
    cases b with
    | nil => exact Or.inr rfl
    | cons y bs =>
      rw [leB_cons_iff, leB_cons_iff]
      rcases Nat.lt_trichotomy x y with h | h | h
      · exact Or.inl (Or.inl h)
      · rcases ih bs with h' | h'
        · exact Or.inl (Or.inr ⟨h, h'⟩)
        · exact Or.inr (Or.inr ⟨h.symm, h'⟩)
      · exact Or.inr (Or.inl h)

theorem leB_antisymm {a b : QK} (hab : leB a b = true) (hba : leB b a = true) :
    a = b := by
  induction a generalizing b with
  | nil =>
    cases b with
    | nil => rfl
    | cons y bs => simp [leB] at hba
  | cons x as ih =>
    cases b with
    | nil => simp [leB] at hab
    | cons y bs =>
      rw [leB_cons_iff] at hab hba
      have hxy : x = y := by omega
      subst hxy
      rcases hab with h | ⟨-, hab'⟩
      · omega
      · rcases hba with h | ⟨-, hba'⟩
        · omega
        · rw [ih hab' hba']

theorem isPreB_iff {p s : QK} : isPreB p s = true ↔ p <+: s := by
  induction p generalizing s with
  | nil => simp [isPreB]
  | cons x ps ih =>
    cases s with
    | nil => simp [isPreB]
    | cons y ss =>
      simp only [isPreB]
      by_cases h : x = y
      · subst h
        simp [ih]
      · simp [h]

theorem isPreB_refl (p : QK) : isPreB p p = true := by
  induction p with
  | nil => rfl
  | cons x ps ih => simp [isPreB, ih]

theorem leB_of_isPreB {p s : QK} (h : isPreB p s = true) : leB p s = true := by
  induction p generalizing s with
  | nil => rfl
  | cons x ps ih =>
    cases s with
    | nil => simp [isPreB] at h
    | cons y ss =>
      simp only [isPreB] at h
      by_cases hxy : x = y
      · rw [if_pos hxy] at h
        exact leB_cons_iff.mpr (Or.inr ⟨hxy, ih h⟩)
      · rw [if_neg hxy] at h
        exact absurd h (by simp)

theorem isPreB_between {p a b c : QK} (hab : leB a b = true) (hbc : leB b c = true)
    (hpa : isPreB p a = true) (hpc : isPreB p c = true) : isPreB p b = true := by
  induction p generalizing a b c with
  | nil => rfl
  | cons x ps ih =>
    cases a with
    | nil => simp [isPreB] at hpa
    | cons xa as =>
      cases c with
      | nil => simp [isPreB] at hpc
      | cons xc cs =>
        simp only [isPreB] at hpa hpc
        by_cases hxa : x = xa
        · by_cases hxc : x = xc
          · rw [if_pos hxa] at hpa
            rw [if_pos hxc] at hpc
            cases b with
            | nil => simp [leB] at hab
            | cons y bs =>
              rw [leB_cons_iff] at hab hbc
              subst hxa
              subst hxc
              have hxy : x = y := by omega
              subst hxy
              have hab' : leB as bs = true := by
                rcases hab with h | ⟨-, h⟩
                · omega
                · exact h
              have hbc' : leB bs cs = true := by
                rcases hbc with h | ⟨-, h⟩
                · omega
                · exact h
              simp only [isPreB, if_pos rfl]
              exact ih hab' hbc' hpa hpc
          · rw [if_neg hxc] at hpc
            exact absurd hpc (by simp)
        · rw [if_neg hxa] at hpa
          exact absurd hpa (by simp)

theorem leB_take {a b : QK} (z : Nat) (h : leB a b = true) :
    leB (a.take z) (b.take z) = true := by
  induction a generalizing b z with
  | nil =>
    rw [List.take_nil]
    rfl
  | cons x as ih =>
    cases b with
    | nil => simp [leB] at h
    | cons y bs =>
      cases z with
      | zero => rfl
      | succ z' =>
        simp only [List.take_succ_cons]
        rw [leB_cons_iff] at h ⊢
        rcases h with h | ⟨h, h'⟩
        · exact Or.inl h
        · exact Or.inr ⟨h, ih _ h'⟩

theorem searchLoop_spec (f : Nat → Bool) (fuel : Nat) :
    ∀ (i j : Nat), j - i ≤ fuel → i ≤ j →
      (∀ a b, a ≤ b → b < j → f a = true → f b = true) →
      (i ≤ searchLoop f fuel i j ∧ searchLoop f fuel i j ≤ j)
      ∧ (∀ k, i ≤ k → k < searchLoop f fuel i j → f k = false)
      ∧ (searchLoop f fuel i j < j → f (searchLoop f fuel i j) = true) := by
  induction fuel with
  | zero =>
    intro i j hfu hij hmono
    have hij' : i = j := by omega
    subst hij'
    simp only [searchLoop]
    exact ⟨⟨Nat.le_refl i, Nat.le_refl i⟩, fun k hk1 hk2 => by omega, fun h => by omega⟩
  | succ fuel ih =>
    intro i j hfu hij hmono
    by_cases hij' : i < j
    · have hm1 : i ≤ (i + j) / 2 := by omega
      have hm2 : (i + j) / 2 < j := by omega
      cases hfm : f ((i + j) / 2) with
      | true =>
        have heq : searchLoop f (fuel + 1) i j = searchLoop f fuel i ((i + j) / 2) := by
          simp only [searchLoop, if_pos hij', hfm, if_pos]
        rw [heq]
        rcases ih i ((i + j) / 2) (by omega) hm1
            (fun a b hab hbj hfa => hmono a b hab (by omega) hfa) with ⟨⟨h1, h2⟩, h3, h4⟩
        refine ⟨⟨h1, by omega⟩, h3, fun hlt => ?_⟩
        by_cases hr : searchLoop f fuel i ((i + j) / 2) < (i + j) / 2
        · exact h4 hr
        · have hre : searchLoop f fuel i ((i + j) / 2) = (i + j) / 2 := by omega
          rw [hre]
          exact hfm
      | false =>
        have heq : searchLoop f (fuel + 1) i j = searchLoop f fuel ((i + j) / 2 + 1) j := by
          simp only [searchLoop, if_pos hij', hfm]
          simp
        rw [heq]
        rcases ih ((i + j) / 2 + 1) j (by omega) (by omega)
            (fun a b hab hbj hfa => hmono a b hab hbj hfa) with ⟨⟨h1, h2⟩, h3, h4⟩
        refine ⟨⟨by omega, h2⟩, fun k hk1 hk2 => ?_, h4⟩
        by_cases hkm : k ≤ (i + j) / 2
        · cases hfk : f k with
          | false => rfl
          | true => exact absurd (hmono k ((i + j) / 2) hkm hm2 hfk) (by simp [hfm])
        · exact h3 k (by omega) hk2
    · have hij'' : i = j := by omega
      subst hij''
      simp only [searchLoop, if_neg hij']
      exact ⟨⟨Nat.le_refl i, Nat.le_refl i⟩, fun k hk1 hk2 => by omega, fun h => by omega⟩

theorem searchIdx_spec {keys : List qkey} (qk : QK) (hs : List.Sorted qkeyLe keys) :
    searchIdx keys qk ≤ keys.length
    ∧ (∀ k (hk : k < keys.length), k < searchIdx keys qk →
        leB qk (keys.get ⟨k, hk⟩).qk = false)
    ∧ (∀ hlt : searchIdx keys qk < keys.length,
        leB qk (keys.get ⟨searchIdx keys qk, hlt⟩).qk = true) := by
  have hgd : ∀ (k : Nat) (hk : k < keys.length), keys.getD k ⟨[], 0⟩ = keys.get ⟨k, hk⟩ := by
    intro k hk
    rw [List.getD_eq_getElem _ _ hk, List.get_eq_getElem]
  have hmono : ∀ a b, a ≤ b → b < keys.length →
      leB qk ((keys.getD a ⟨[], 0⟩).qk) = true →
      leB qk ((keys.getD b ⟨[], 0⟩).qk) = true := by
    intro a b hab hb hfa
    have ha : a < keys.length := by omega
    rw [hgd a ha] at hfa
    rw [hgd b hb]
    rcases Nat.lt_or_ge a b with h | h
    · have hrel : qkeyLe (keys.get ⟨a, ha⟩) (keys.get ⟨b, hb⟩) :=
        List.pairwise_iff_get.mp hs ⟨a, ha⟩ ⟨b, hb⟩ h
      exact leB_trans hfa hrel
    · have hab' : a = b := by omega
      subst hab'
      exact hfa
  rcases searchLoop_spec (fun i => leB qk ((keys.getD i ⟨[], 0⟩).qk)) keys.length 0
      keys.length (by omega) (by omega) hmono with ⟨⟨-, h2⟩, h3, h4⟩
  refine ⟨h2, fun k hk hklt => ?_, fun hlt => ?_⟩
  · have h := h3 k (by omega) hklt
    rw [hgd k hk] at h
    exact h
  · have h := h4 hlt
    rw [← hgd (searchIdx keys qk) hlt]
    exact h

theorem sortIdx_sorted_true {α : Type} (idx : TileIndex α) : (sortIdx idx).sorted = true := by
  unfold sortIdx
  cases h : idx.sorted <;> simp [h]

theorem sortIdx_idem {α : Type} (idx : TileIndex α) : sortIdx (sortIdx idx) = sortIdx idx := by
  unfold sortIdx
  cases h : idx.sorted <;> simp [h]

theorem sortIdx_values {α : Type} (idx : TileIndex α) : (sortIdx idx).values = idx.values := by
  unfold sortIdx
  cases h : idx.sorted <;> simp [h]

theorem sortIdx_keys_perm {α : Type} (idx : TileIndex α) :
    (sortIdx idx).keys.Perm idx.keys := by
  unfold sortIdx
  cases h : idx.sorted with
  | false =>
    simp only [Bool.false_eq_true, if_neg]
    exact List.perm_insertionSort qkeyLe idx.keys
  | true => simp [h]

theorem sortIdx_sorted_keys {α : Type} {idx : TileIndex α} (hok : flagOK idx) :
    List.Sorted qkeyLe (sortIdx idx).keys := by
  unfold sortIdx
  cases h : idx.sorted with
  | false =>
    simp only [Bool.false_eq_true, if_neg]
    haveI : IsTotal qkey qkeyLe := ⟨fun a b => leB_total a.qk b.qk⟩
    haveI : IsTrans qkey qkeyLe := ⟨fun a b c hab hbc => leB_trans hab hbc⟩
    exact List.sorted_insertionSort qkeyLe idx.keys
  | true =>
    simp only [if_pos]
    exact hok h

theorem foldl_add_sorted {α : Type} :
    ∀ (ps : List (Tile × α)) (idx : TileIndex α),
      (List.foldl (fun i p => Add i p.1 p.2) idx ps).sorted
        = if ps.isEmpty then idx.sorted else false := by
  intro ps
  induction ps with
  | nil => intro idx; rfl
  | cons p ps ih =>
    intro idx
    simp only [List.foldl_cons, ih]
    cases ps <;> simp [Add]

theorem buildIdx_sorted_false {α : Type} (ps : List (Tile × α)) :
    (buildIdx ps).sorted = false := by
  have h := foldl_add_sorted ps (emptyIndex (α := α))
  unfold buildIdx
  rw [h]
  cases ps <;> rfl

theorem buildIdx_flagOK {α : Type} (ps : List (Tile × α)) : flagOK (buildIdx ps) := by
  intro h
  rw [buildIdx_sorted_false ps] at h
  exact absurd h (by simp)

theorem entriesValid_empty {α : Type} : entriesValid (emptyIndex (α := α)) := by
  intro k hk
  exact absurd hk (List.not_mem_nil k)

theorem entriesValid_add {α : Type} {idx : TileIndex α} (h : entriesValid idx)
    (t : Tile) (val : α) : entriesValid (Add idx t val) := by
  intro k hk
  simp only [Add, List.mem_append, List.mem_singleton] at hk
  rcases hk with hk | hk
  · have := h k hk
    simp only [Add, List.length_append, List.length_singleton]
    omega
  · subst hk
    simp only [Add, List.length_append, List.length_singleton]
    omega

theorem entriesValid_sortIdx {α : Type} {idx : TileIndex α} (h : entriesValid idx) :
    entriesValid (sortIdx idx) := by
  intro k hk
  rw [sortIdx_values]
  exact h k ((sortIdx_keys_perm idx).mem_iff.mp hk)

theorem buildIdx_valid {α : Type} (ps : List (Tile × α)) : entriesValid (buildIdx ps) := by
  suffices h : ∀ (ps : List (Tile × α)) (idx : TileIndex α), entriesValid idx →
      entriesValid (List.foldl (fun i p => Add i p.1 p.2) idx ps) by
    exact h ps emptyIndex entriesValid_empty
  intro ps
  induction ps with
  | nil => exact fun idx h => h
  | cons p ps ih =>
    intro idx h
    simp only [List.foldl_cons]
    exact ih (Add idx p.1 p.2) (entriesValid_add h p.1 p.2)

theorem add_keeps_entry {α : Type} {idx : TileIndex α} {tp : Tile} {v : α}
    (h : ∃ k ∈ idx.keys, k.qk = tp ∧ idx.values[k.v]? = some v) (t : Tile) (val : α) :
    ∃ k ∈ (Add idx t val).keys, k.qk = tp ∧ (Add idx t val).values[k.v]? = some v := by
  obtain ⟨k, hk, hqk, hv⟩ := h
  have hlt : k.v < idx.values.length := by
    rcases List.getElem?_eq_some.mp hv with ⟨hlt, -⟩
    exact hlt
  refine ⟨k, List.mem_append_left _ hk, hqk, ?_⟩
  simp only [Add]
  rw [List.getElem?_append, if_pos hlt]
  exact hv

theorem add_new_entry {α : Type} (idx : TileIndex α) (t : Tile) (val : α) :
    ∃ k ∈ (Add idx t val).keys, k.qk = t ∧ (Add idx t val).values[k.v]? = some val := by
  refine ⟨⟨t, (idx.values ++ [val]).length - 1⟩, ?_, rfl, ?_⟩
  · simp [Add]
  · simp only [Add, List.length_append, List.length_singleton]
    have hl : idx.values.length + 1 - 1 = idx.values.length := by omega
    rw [hl, List.getElem?_append_right (Nat.le_refl _)]
    simp

theorem buildIdx_entry {α : Type} :
    ∀ (ps : List (Tile × α)) (idx : TileIndex α) (tp : Tile) (v : α),
      ((tp, v) ∈ ps ∨ ∃ k ∈ idx.keys, k.qk = tp ∧ idx.values[k.v]? = some v) →
      ∃ k ∈ (List.foldl (fun i p => Add i p.1 p.2) idx ps).keys,
        k.qk = tp ∧ (List.foldl (fun i p => Add i p.1 p.2) idx ps).values[k.v]? = some v := by
  intro ps
  induction ps with
  | nil =>
    intro idx tp v h
    rcases h with h | h
    · exact absurd h (List.not_mem_nil _)
    · exact h
  | cons p ps ih =>
    intro idx tp v h
    simp only [List.foldl_cons]
    apply ih
    rcases h with h | h
    · rcases List.mem_cons.mp h with h | h
      · right
        rw [← h]
        exact add_new_entry idx tp v
      · exact Or.inl h
    · exact Or.inr (add_keeps_entry h p.1 p.2)

theorem Values_eq {α : Type} (idx : TileIndex α) (t : Tile) :
    Values idx t
      = if h : searchIdx (sortIdx idx).keys t < (sortIdx idx).keys.length then
          valuesLoop (sortIdx idx).values t
            ((sortIdx idx).keys.drop (searchIdx (sortIdx idx).keys t))
            ((sortIdx idx).keys.get ⟨searchIdx (sortIdx idx).keys t, h⟩)
        else some [] := rfl

theorem valuesLoop_total {α : Type} (values : List α) (qk : QK) :
    ∀ (rest : List qkey) (n : qkey), (∀ k ∈ rest, k.v < values.length) →
      ∃ l, valuesLoop values qk rest n = some l := by
  intro rest
  induction rest with
  | nil => exact fun n _ => ⟨[], rfl⟩
  | cons k rest ih =>
    intro n h
    cases hp : isPreB qk n.qk with
    | false =>
      refine ⟨[], ?_⟩
      simp [valuesLoop, hp]
    | true =>
      have hk : k.v < values.length := h k (List.mem_cons_self k rest)
      obtain ⟨l, hl⟩ := ih k (fun x hx => h x (List.mem_cons_of_mem k hx))
      refine ⟨values[k.v] :: l, ?_⟩
      simp [valuesLoop, hp, List.getElem?_eq_getElem hk, hl]

theorem valuesLoop_collect {α : Type} (values : List α) (qk : QK) :
    ∀ (l₁ : List qkey) (e : qkey) (l₂ : List qkey) (n : qkey) (v : α),
      isPreB qk n.qk = true →
      (∀ x ∈ l₁, isPreB qk x.qk = true) →
      (∀ x ∈ l₁ ++ e :: l₂, x.v < values.length) →
      values[e.v]? = some v →
      ∃ l, valuesLoop values qk (l₁ ++ e :: l₂) n = some l ∧ v ∈ l := by
  intro l₁
  induction l₁ with
  | nil =>
    intro e l₂ n v hn hl hval hv
    obtain ⟨l, hl₂⟩ := valuesLoop_total values qk l₂ e (fun x hx => hval x (by simp [hx]))
    refine ⟨v :: l, ?_, List.mem_cons_self v l⟩
    simp only [List.nil_append]
    simp [valuesLoop, hn, hv, hl₂]
  | cons x l₁ ih =>
    intro e l₂ n v hn hl hval hv
    have hx : isPreB qk x.qk = true := hl x (List.mem_cons_self x l₁)
    have hxv : x.v < values.length := hval x (by simp)
    obtain ⟨l, hloop, hvl⟩ := ih e l₂ x v hx (fun y hy => hl y (List.mem_cons_of_mem x hy))
        (fun y hy => hval y (by rw [List.cons_append]; exact List.mem_cons_of_mem x hy)) hv
    refine ⟨values[x.v] :: l, ?_, List.mem_cons_of_mem _ hvl⟩
    rw [List.cons_append]
    simp [valuesLoop, hn, List.getElem?_eq_getElem hxv, hloop]

theorem sorted_get_le {keys : List qkey} (hs : List.Sorted qkeyLe keys) {a b : Nat}
    (ha : a < keys.length) (hb : b < keys.length) (hab : a ≤ b) :
    leB (keys.get ⟨a, ha⟩).qk (keys.get ⟨b, hb⟩).qk = true := by
  rcases Nat.lt_or_ge a b with h | h
  · exact List.pairwise_iff_get.mp hs ⟨a, ha⟩ ⟨b, hb⟩ h
  · have hab' : a = b := by omega
    subst hab'
    exact leB_refl _

theorem values_core_mem {α : Type} (K : List qkey) (vals : List α) (t : Tile) (k₀ : qkey)
    (v : α) (hs : List.Sorted qkeyLe K) (hvalid : ∀ k ∈ K, k.v < vals.length)
    (hk : k₀ ∈ K) (hpre : isPreB t k₀.qk = true) (hv : vals[k₀.v]? = some v) :
    ∃ l, (if h : searchIdx K t < K.length then
        valuesLoop vals t (K.drop (searchIdx K t)) (K.get ⟨searchIdx K t, h⟩)
      else some []) = some l ∧ v ∈ l := by
  obtain ⟨⟨j, hj⟩, hjk⟩ := List.mem_iff_get.mp hk
  rcases searchIdx_spec t hs with ⟨hle, hbelow, hat⟩
  have hij : searchIdx K t ≤ j := by
    by_contra hc
    push_neg at hc
    have hfalse := hbelow j hj hc
    have htrue : leB t (K.get ⟨j, hj⟩).qk = true := by
      rw [hjk]
      exact leB_of_isPreB hpre
    rw [htrue] at hfalse
    exact absurd hfalse (by simp)
  have hi0 : searchIdx K t < K.length := Nat.lt_of_le_of_lt hij hj
  have hmatch : ∀ m (hm : m < K.length), searchIdx K t ≤ m → m ≤ j →
      isPreB t (K.get ⟨m, hm⟩).qk = true := by
    intro m hm hm1 hm2
    have h2 : leB t (K.get ⟨m, hm⟩).qk = true :=
      leB_trans (hat hi0) (sorted_get_le hs hi0 hm hm1)
    have h3 : leB (K.get ⟨m, hm⟩).qk (K.get ⟨j, hj⟩).qk = true :=
      sorted_get_le hs hm hj hm2
    rw [hjk] at h3
    exact isPreB_between h2 h3 (isPreB_refl t) hpre
  have hsplit : K.drop (searchIdx K t)
      = (K.drop (searchIdx K t)).take (j - searchIdx K t) ++ k₀ :: K.drop (j + 1) := by
    have h1 : (K.drop (searchIdx K t)).drop (j - searchIdx K t) = K.drop j := by
      rw [List.drop_drop]
      have harith : searchIdx K t + (j - searchIdx K t) = j := by omega
      rw [harith]
    have h2 : K.drop j = k₀ :: K.drop (j + 1) := by
      rw [List.drop_eq_getElem_cons hj, ← hjk, List.get_eq_getElem]
    calc K.drop (searchIdx K t)
        = (K.drop (searchIdx K t)).take (j - searchIdx K t)
          ++ (K.drop (searchIdx K t)).drop (j - searchIdx K t) :=
          (List.take_append_drop _ _).symm
      _ = (K.drop (searchIdx K t)).take (j - searchIdx K t) ++ k₀ :: K.drop (j + 1) := by
          rw [h1, h2]
  have hl₁ : ∀ x ∈ (K.drop (searchIdx K t)).take (j - searchIdx K t),
      isPreB t x.qk = true := by
    intro x hx
    obtain ⟨p, hp, hpx⟩ := List.mem_iff_getElem.mp hx
    have hp1 : p < j - searchIdx K t := by
      have hlen := hp
      simp only [List.length_take, List.length_drop] at hlen
      omega
    have hp2 : searchIdx K t + p < K.length := by omega
    have hgx : x = K.get ⟨searchIdx K t + p, hp2⟩ := by
      rw [← hpx, List.getElem_take, List.getElem_drop, List.get_eq_getElem]
    rw [hgx]
    exact hmatch (searchIdx K t + p) hp2 (by omega) (by omega)
  have hvalS : ∀ x ∈ K.drop (searchIdx K t), x.v < vals.length :=
    fun x hx => hvalid x (List.drop_subset _ K hx)
  rw [hsplit] at hvalS
  obtain ⟨l, hloop, hvmem⟩ := valuesLoop_collect vals t
      ((K.drop (searchIdx K t)).take (j - searchIdx K t)) k₀ (K.drop (j + 1))
      (K.get ⟨searchIdx K t, hi0⟩) v
      (hmatch (searchIdx K t) hi0 (Nat.le_refl _) hij) hl₁ hvalS hv
  refine ⟨l, ?_, hvmem⟩
  rw [dif_pos hi0, hsplit]
  exact hloop

theorem tileRange_eq {α : Type} (idx : TileIndex α) (zmin zmax : Nat) :
    tileRange idx zmin zmax
      = match (sortIdx idx).keys.getLast? with
        | none => none
        | some last => some (pairsLoop zmin zmax (sortIdx idx).keys
            ++ zScanLast last.qk zmax (zmax + 1 - zmin) zmin) := rfl

theorem foldl_add_keys_map {α : Type} :
    ∀ (ps : List (Tile × α)) (idx : TileIndex α),
      (List.foldl (fun i p => Add i p.1 p.2) idx ps).keys.map qkey.qk
        = idx.keys.map qkey.qk ++ ps.map Prod.fst := by
  intro ps
  induction ps with
  | nil => intro idx; simp
  | cons p ps ih =>
    intro idx
    simp only [List.foldl_cons, ih, List.map_cons]
    simp [Add]

theorem buildIdx_keys_map {α : Type} (ps : List (Tile × α)) :
    (buildIdx ps).keys.map qkey.qk = ps.map Prod.fst := by
  have h := foldl_add_keys_map ps (emptyIndex (α := α))
  unfold buildIdx
  rw [h]
  simp [emptyIndex]

theorem isPreB_take_iff {a : QK} (b : QK) {z : Nat} (ha : z ≤ a.length) :
    isPreB (a.take z) b = true ↔ b.take z = a.take z := by
  rw [isPreB_iff, List.prefix_iff_eq_take, List.length_take, Nat.min_eq_left ha, eq_comm]

theorem zScan_one {q n : QK} {z : Nat} (h : z ≤ q.length) :
    zScan q n z 1 z = if isPreB (q.take z) n then [] else [q.take z] := by
  simp [zScan, h]

theorem zScanLast_one {q : QK} {z : Nat} (h : z ≤ q.length) :
    zScanLast q z 1 z = [q.take z] := by
  simp [zScanLast, h]

theorem pairs_bnd {z : Nat} :
    ∀ (K : List qkey) (last : qkey), K.getLast? = some last →
      (∀ k ∈ K, z ≤ k.qk.length) →
      pairsLoop z z K ++ zScanLast last.qk z (z + 1 - z) z
        = bnd (K.map (fun k => k.qk.take z)) := by
  have hfuel : z + 1 - z = 1 := by omega
  intro K
  induction K with
  | nil => intro last hlast; exact absurd hlast (by simp)
  | cons a K ih =>
    intro last hlast hlen
    cases K with
    | nil =>
      have ha : last = a := by
        simp only [List.getLast?_singleton, Option.some_inj] at hlast
        exact hlast.symm
      subst ha
      have hla : z ≤ last.qk.length := hlen last (by simp)
      simp only [pairsLoop, List.map_cons, List.map_nil, bnd, hfuel]
      rw [zScanLast_one hla]
      rfl
    | cons b K =>
      have hlast' : (b :: K).getLast? = some last := by
        rw [List.getLast?_cons_cons] at hlast
        exact hlast
      have ha : z ≤ a.qk.length := hlen a (by simp)
      have hb : z ≤ b.qk.length := hlen b (by simp)
      have ihh := ih last hlast' (fun k hk => hlen k (List.mem_cons_of_mem a hk))
      rw [hfuel] at ihh
      simp only [pairsLoop, hfuel, List.map_cons, bnd]
      rw [zScan_one ha, List.append_assoc, ihh, List.map_cons]
      by_cases heq : b.qk.take z = a.qk.take z
      · rw [if_pos ((isPreB_take_iff b.qk ha).mpr heq), if_pos heq.symm]
      · rw [if_neg (fun hc => heq ((isPreB_take_iff b.qk ha).mp hc)),
          if_neg (fun hc => heq hc.symm)]

theorem map_take_sorted {K : List qkey} (hs : List.Sorted qkeyLe K) (z : Nat) :
    List.Sorted (fun x y : QK => leB x y = true) (K.map (fun k => k.qk.take z)) := by
  rw [List.Sorted, List.pairwise_map]
  exact hs.imp (fun h => leB_take z h)

theorem bnd_spec :
    ∀ (m : List QK), List.Sorted (fun x y : QK => leB x y = true) m →
      (bnd m).Nodup ∧ ∀ q, q ∈ bnd m ↔ q ∈ m := by
  intro m
  induction m with
  | nil => intro h; exact ⟨List.nodup_nil, fun q => by simp [bnd]⟩
  | cons x m ih =>
    intro hs
    cases m with
    | nil =>
      refine ⟨List.nodup_singleton x, fun q => ?_⟩
      simp [bnd]
    | cons y rest =>
      have hs' : List.Sorted (fun x y : QK => leB x y = true) (y :: rest) :=
        List.Sorted.of_cons hs
      obtain ⟨ihn, ihm⟩ := ih hs'
      have hxy : leB x y = true := (List.sorted_cons.mp hs).1 y (by simp)
      by_cases hxe : x = y
      · have hbnd : bnd (x :: y :: rest) = bnd (y :: rest) := by simp [bnd, hxe]
        refine ⟨hbnd ▸ ihn, fun q => ?_⟩
        rw [hbnd, ihm q]
        subst hxe
        simp only [List.mem_cons]
        tauto
      · have hbnd : bnd (x :: y :: rest) = x :: bnd (y :: rest) := by simp [bnd, hxe]
        refine ⟨?_, fun q => ?_⟩
        · rw [hbnd]
          refine List.nodup_cons.mpr ⟨?_, ihn⟩
          intro hxin
          have hxmem : x ∈ y :: rest := (ihm x).mp hxin
          have hyx : leB y x = true := by
            rcases List.mem_cons.mp hxmem with h | h
            · exact absurd h hxe
            · exact (List.sorted_cons.mp hs').1 x h
          exact hxe (leB_antisymm hxy hyx)
        · rw [hbnd]
          simp only [List.mem_cons, ihm q]

/-- C1: the claim that `Values t` collects only values whose insertion key
has the quadkey of `t` at its front fails on the code.  In the concrete
scenario, value "C" was inserted at key `[1,3]`, and `[1,2,0]` does not
stand at the front of `[1,3]`, yet "C" is in the sequence returned by
`Values` at `[1,2,0]`: the scan loop of `Values` tests the entry one step
behind the cursor and so collects one extra entry past the matching run. -/
theorem values_collects_outside_subtree :
    (([1,3], "C") ∈ ([([1,2,0], "A"), ([1,2,0,1], "B"), ([1,3], "C")] : List (Tile × String)))
    ∧ ¬ (([1,2,0] : QK) <+: ([1,3] : QK))
    ∧ ∃ l, Values (buildIdx [([1,2,0], "A"), ([1,2,0,1], "B"), ([1,3], "C")]) [1,2,0] = some l
        ∧ "C" ∈ l := by
  refine ⟨by decide, by decide, ⟨["A", "B", "C"], rfl, by decide⟩⟩

/-- C2: on an index with no entries, `Values` returns the empty sequence for
every tile, but `TileRange` does not return an empty sequence: the Go code
unconditionally reads `idx.keys[len(idx.keys)-1]`, which on an empty index
is an out-of-range access, i.e. a panic (modelled as `none`). -/
theorem empty_index_reads :
    (∀ (α : Type) (t : Tile), Values (emptyIndex (α := α)) t = some [])
    ∧ (∀ (α : Type) (zmin zmax : Nat), tileRange (emptyIndex (α := α)) zmin zmax = none) :=
  ⟨fun _ _ => rfl, fun _ _ _ => rfl⟩

/-- C3: in the concrete scenario (insert "A" at `[1,2,0]`, "B" at
`[1,2,0,1]`, "C" at `[1,3]`), the code returns `["A","B","C"]` for the query
`[1,2,0]` (the claim says exactly {"A","B"}) and `["B","C"]` for `[1,2,0,1]`
(the claim says exactly {"B"}): the scan loop of `Values` collects one entry
past the matching run.  The queries `[1,3]` and `[2]` agree with the claim. -/
theorem scenario_values_eval :
    Values (buildIdx [([1,2,0], "A"), ([1,2,0,1], "B"), ([1,3], "C")]) [1,2,0]
      = some ["A", "B", "C"]
    ∧ Values (buildIdx [([1,2,0], "A"), ([1,2,0,1], "B"), ([1,3], "C")]) [1,2,0,1]
      = some ["B", "C"]
    ∧ Values (buildIdx [([1,2,0], "A"), ([1,2,0,1], "B"), ([1,3], "C")]) [1,3]
      = some ["C"]
    ∧ Values (buildIdx [([1,2,0], "A"), ([1,2,0,1], "B"), ([1,3], "C")]) [2]
      = some [] :=
  ⟨rfl, rfl, rfl, rfl⟩

/-- C6: in the concrete scenario, `TileRange 1 2` emits the zoom-1 tile `[1]`
exactly once and the zoom-2 tiles `[1,2]` and `[1,3]` exactly once each, and
emits neither `[1,2,0]` nor `[1,2,0,1]`. -/
theorem scenario_tileRange_eval :
    tileRange (buildIdx [([1,2,0], "A"), ([1,2,0,1], "B"), ([1,3], "C")]) 1 2
      = some [[1,2], [1], [1,3]]
    ∧ List.count ([1] : QK) [[1,2], [1], [1,3]] = 1
    ∧ List.count ([1,2] : QK) [[1,2], [1], [1,3]] = 1
    ∧ List.count ([1,3] : QK) [[1,2], [1], [1,3]] = 1
    ∧ ([1,2,0] : QK) ∉ ([[1,2], [1], [1,3]] : List QK)
    ∧ ([1,2,0,1] : QK) ∉ ([[1,2], [1], [1,3]] : List QK) := by
  refine ⟨rfl, by decide, by decide, by decide, by decide, by decide⟩

/-- C7: insert-order independence of `Values` fails on the code.  The two
insertion sequences below are permutations of each other, but with two
entries sharing the key `[1]` the extra entry collected past the matching
run differs between them: querying `[0]` returns `["A","B"]` after one
order and `["A","C"]` after the other, so the value sets differ ("B" is in
the first result and not in the second). -/
theorem values_insert_order_dependent :
    ([([0], "A"), ([1], "B"), ([1], "C")] : List (Tile × String)).Perm
      [([0], "A"), ([1], "C"), ([1], "B")]
    ∧ Values (buildIdx [([0], "A"), ([1], "B"), ([1], "C")]) [0] = some ["A", "B"]
    ∧ Values (buildIdx [([0], "A"), ([1], "C"), ([1], "B")]) [0] = some ["A", "C"]
    ∧ "B" ∈ (["A", "B"] : List String)
    ∧ "B" ∉ (["A", "C"] : List String) := by
  refine ⟨by decide, rfl, rfl, by decide, by decide⟩

/-- C4: for every sequence of insertions and every pair of tiles `t`, `tp`
with the quadkey of `t` standing at the front of the quadkey of `tp`
(including `t = tp`), every value inserted at `tp` via `Add` appears in the
sequence returned by `Values t` (in particular `Values` returns without
failure). -/
theorem values_aggregates_upward :
    ∀ (α : Type) (ps : List (Tile × α)) (t tp : Tile) (v : α),
      (tp, v) ∈ ps → t <+: tp →
      ∃ l, Values (buildIdx ps) t = some l ∧ v ∈ l := by
  intro α ps t tp v hmem hpre
  have hsorted : List.Sorted qkeyLe (sortIdx (buildIdx ps)).keys :=
    sortIdx_sorted_keys (buildIdx_flagOK ps)
  have hval : entriesValid (sortIdx (buildIdx ps)) :=
    entriesValid_sortIdx (buildIdx_valid ps)
  obtain ⟨k, hk, hqk, hv⟩ := buildIdx_entry ps emptyIndex tp v (Or.inl hmem)
  have hk' : k ∈ (sortIdx (buildIdx ps)).keys :=
    (sortIdx_keys_perm (buildIdx ps)).mem_iff.mpr hk
  have hv' : (sortIdx (buildIdx ps)).values[k.v]? = some v := by
    rw [sortIdx_values]
    exact hv
  have hpre' : isPreB t k.qk = true := by
    rw [hqk]
    exact isPreB_iff.mpr hpre
  rw [Values_eq]
  exact values_core_mem (sortIdx (buildIdx ps)).keys (sortIdx (buildIdx ps)).values
    t k v hsorted (fun x hx => hval x hx) hk' hpre' hv'

/-- Witness for C4 at a concrete input: "B" inserted at `[1,2]` appears in
`Values [1]` because `[1]` stands at the front of `[1,2]`. -/
theorem values_aggregates_upward_wit :
    ((([1,2], "B") ∈ ([([1,2], "B")] : List (Tile × String)))
      ∧ (([1] : QK) <+: [1,2]))
    ∧ ∃ l, Values (buildIdx [([1,2], "B")]) [1] = some l ∧ "B" ∈ l :=
  ⟨⟨by decide, by decide⟩,
    values_aggregates_upward String [([1,2], "B")] [1] [1,2] "B" (by decide) (by decide)⟩

/-- C8: the sorted flag is a faithful witness of sortedness: whenever the
flag is true the keys are in ascending lexicographic byte order, the flag is
cleared by every `Add` (so flag truthfulness is preserved by insertion), it
is preserved by the internal sort step, and after the sort step the keys are
non-decreasing in key and the flag is true. -/
theorem sorted_flag_faithful :
    (∀ (α : Type) (idx : TileIndex α) (t : Tile) (v : α), (Add idx t v).sorted = false)
    ∧ (∀ (α : Type) (idx : TileIndex α) (t : Tile) (v : α),
        flagOK idx → flagOK (Add idx t v))
    ∧ (∀ (α : Type) (idx : TileIndex α), flagOK idx → flagOK (sortIdx idx))
    ∧ (∀ (α : Type) (idx : TileIndex α), flagOK idx →
        (sortIdx idx).sorted = true ∧ List.Sorted qkeyLe (sortIdx idx).keys) := by
  refine ⟨fun α idx t v => rfl, ?_, ?_, ?_⟩
  · intro α idx t v hok h
    rw [show (Add idx t v).sorted = false from rfl] at h
    exact absurd h (by simp)
  · intro α idx hok h
    exact sortIdx_sorted_keys hok
  · intro α idx hok
    exact ⟨sortIdx_sorted_true idx, sortIdx_sorted_keys hok⟩

/-- Witness for C8 at a concrete input: the zero-valued index has a truthful
flag, sorting it sets the flag and sorts the keys, and an `Add` clears the
flag. -/
theorem sorted_flag_faithful_wit :
    (Add (emptyIndex (α := Nat)) [1] 3).sorted = false
    ∧ ((sortIdx (emptyIndex (α := Nat))).sorted = true
        ∧ List.Sorted qkeyLe (sortIdx (emptyIndex (α := Nat))).keys) :=
  ⟨sorted_flag_faithful.1 Nat emptyIndex [1] 3,
    sorted_flag_faithful.2.2.2 Nat emptyIndex
      (fun h => absurd h (by simp [emptyIndex]))⟩

/-- C10: every entry references inside the value store: the invariant holds
for the zero-valued index, is established and preserved by `Add` (which
appends the value before creating the entry), is preserved by the sort step,
and under it `Values` never reads the value store out of range (it returns
`some`, never the panic `none`). -/
theorem valueIndex_bounds :
    (∀ α : Type, entriesValid (emptyIndex (α := α)))
    ∧ (∀ (α : Type) (idx : TileIndex α) (t : Tile) (v : α),
        entriesValid idx → entriesValid (Add idx t v))
    ∧ (∀ (α : Type) (idx : TileIndex α), entriesValid idx → entriesValid (sortIdx idx))
    ∧ (∀ (α : Type) (idx : TileIndex α) (t : Tile),
        entriesValid idx → (Values idx t).isSome = true) := by
  refine ⟨fun α => entriesValid_empty, fun α idx t v h => entriesValid_add h t v,
    fun α idx h => entriesValid_sortIdx h, fun α idx t h => ?_⟩
  rw [Values_eq]
  by_cases hlt : searchIdx (sortIdx idx).keys t < (sortIdx idx).keys.length
  · rw [dif_pos hlt]
    obtain ⟨l, hl⟩ := valuesLoop_total (sortIdx idx).values t
        ((sortIdx idx).keys.drop (searchIdx (sortIdx idx).keys t))
        ((sortIdx idx).keys.get ⟨_, hlt⟩)
        (fun k hk => entriesValid_sortIdx h k (List.drop_subset _ _ hk))
    rw [hl]
    rfl
  · rw [dif_neg hlt]
    rfl

/-- Witness for C10 at a concrete input: a one-entry index built by `Add`
satisfies the invariant and `Values` succeeds on it. -/
theorem valueIndex_bounds_wit :
    entriesValid (Add (emptyIndex (α := Nat)) [1] 7)
    ∧ (Values (Add (emptyIndex (α := Nat)) [1] 7) [1]).isSome = true :=
  ⟨valueIndex_bounds.2.1 Nat emptyIndex [1] 7 (fun k hk => absurd hk (List.not_mem_nil k)),
    valueIndex_bounds.2.2.2 Nat (Add emptyIndex [1] 7) [1]
      (valueIndex_bounds.2.1 Nat emptyIndex [1] 7
        (fun k hk => absurd hk (List.not_mem_nil k)))⟩

/-- C5: for a non-empty sequence of insertions and any single zoom `z` not
exceeding the length of any inserted key, `TileRange z z` emits exactly the
distinct length-`z` front parts of the inserted keys, each exactly once (no
duplicates, no omissions). -/
theorem tileRange_single_zoom :
    ∀ (α : Type) (ps : List (Tile × α)) (z : Nat),
      ps ≠ [] → (∀ p ∈ ps, z ≤ p.1.length) →
      ∃ ts, tileRange (buildIdx ps) z z = some ts
        ∧ ts.Nodup ∧ (∀ q : QK, q ∈ ts ↔ ∃ p ∈ ps, q = p.1.take z) := by
  intro α ps z hne hz
  have hperm : ((sortIdx (buildIdx ps)).keys.map qkey.qk).Perm (ps.map Prod.fst) := by
    have h1 := (sortIdx_keys_perm (buildIdx ps)).map qkey.qk
    rw [buildIdx_keys_map] at h1
    exact h1
  have hKne : (sortIdx (buildIdx ps)).keys ≠ [] := by
    intro hK
    have hlen := hperm.length_eq
    rw [hK] at hlen
    simp only [List.map_nil, List.length_nil, List.length_map] at hlen
    exact hne (List.length_eq_zero.mp hlen.symm)
  have hlenk : ∀ k ∈ (sortIdx (buildIdx ps)).keys, z ≤ k.qk.length := by
    intro k hk
    have hqk : k.qk ∈ ps.map Prod.fst :=
      hperm.mem_iff.mp (List.mem_map_of_mem qkey.qk hk)
    obtain ⟨p, hp, hpe⟩ := List.mem_map.mp hqk
    rw [← hpe]
    exact hz p hp
  have hcore := pairs_bnd (sortIdx (buildIdx ps)).keys
      ((sortIdx (buildIdx ps)).keys.getLast hKne)
      (List.getLast?_eq_getLast _ hKne) hlenk
  have hsorted := map_take_sorted (sortIdx_sorted_keys (buildIdx_flagOK ps)) z
  refine ⟨bnd ((sortIdx (buildIdx ps)).keys.map (fun k => k.qk.take z)), ?_, ?_, ?_⟩
  · rw [tileRange_eq, List.getLast?_eq_getLast _ hKne]
    exact congrArg some hcore
  · exact (bnd_spec _ hsorted).1
  · intro q
    rw [(bnd_spec _ hsorted).2 q]
    constructor
    · intro hq
      obtain ⟨k, hk, he⟩ := List.mem_map.mp hq
      obtain ⟨p, hp, hpe⟩ :=
        List.mem_map.mp (hperm.mem_iff.mp (List.mem_map_of_mem qkey.qk hk))
      exact ⟨p, hp, by rw [← he, hpe]⟩
    · rintro ⟨p, hp, he⟩
      obtain ⟨k, hk, hke⟩ :=
        List.mem_map.mp (hperm.mem_iff.mpr (List.mem_map_of_mem Prod.fst hp))
      exact List.mem_map.mpr ⟨k, hk, by rw [hke, ← he]⟩

/-- Witness for C5 at a concrete input: one entry at key `[1,2]`, zoom 1,
enumerates exactly the front part `[1]` once. -/
theorem tileRange_single_zoom_wit :
    (([([1,2], 9)] : List (Tile × Nat)) ≠ []
      ∧ ∀ p ∈ ([([1,2], 9)] : List (Tile × Nat)), 1 ≤ p.1.length)
    ∧ ∃ ts, tileRange (buildIdx [([1,2], 9)]) 1 1 = some ts
        ∧ ts.Nodup
        ∧ (∀ q : QK, q ∈ ts ↔ ∃ p ∈ ([([1,2], 9)] : List (Tile × Nat)), q = p.1.take 1) :=
  ⟨⟨by decide, by decide⟩, tileRange_single_zoom Nat [([1,2], 9)] 1 (by decide) (by decide)⟩

/-- C9: read operations are idempotent on the state and the results.  The
state effect of a read is exactly `sortIdx`; a second read finds the sorted
flag set and changes nothing, and `Values` / `tileRange` return the same
results on the once-read state as on the original state. -/
theorem reads_idempotent :
    (∀ (α : Type) (idx : TileIndex α), sortIdx (sortIdx idx) = sortIdx idx)
    ∧ (∀ (α : Type) (idx : TileIndex α) (t : Tile),
        Values (sortIdx idx) t = Values idx t)
    ∧ (∀ (α : Type) (idx : TileIndex α) (zmin zmax : Nat),
        tileRange (sortIdx idx) zmin zmax = tileRange idx zmin zmax) := by
  refine ⟨fun α idx => sortIdx_idem idx, fun α idx t => ?_, fun α idx zmin zmax => ?_⟩
  · unfold Values
    rw [sortIdx_idem]
  · unfold tileRange
    rw [sortIdx_idem]

end Tiles
